import Mathlib

/-!
Verification development for the Mermaid Studio desktop editor.

The Python sources are shallowly embedded here: text buffers are lists of
characters, the scanning and replacement routines are translated as fuel-based
structurally recursive functions (so that they compute by kernel reduction),
and the render-lock concurrency is embedded as a labelled step relation.
-/

namespace MermaidStudio

abbrev Chars := List Char

/-- The needle occurs in the haystack starting at index i. -/
def matchesAt (hay needle : Chars) (i : Nat) : Bool :=
  decide ((hay.drop i).take needle.length = needle)

/-- Fuel-based scan for the first occurrence of the needle at an index at or
after i (the Tk text-widget forward search used throughout the app). -/
def findFromAux (hay needle : Chars) : Nat → Nat → Option Nat
  | 0, _ => none
  | fuel + 1, i =>
    if i + needle.length ≤ hay.length then
      if matchesAt hay needle i then some i
      else findFromAux hay needle fuel (i + 1)
    else none

/-- First occurrence of the needle at an index at or after i. -/
def findFrom (hay needle : Chars) (i : Nat) : Option Nat :=
  findFromAux hay needle (hay.length + 1 - i) i

theorem findFrom_unfold (hay needle : Chars) (i : Nat) :
    findFrom hay needle i =
      if i + needle.length ≤ hay.length then
        if matchesAt hay needle i then some i
        else findFrom hay needle (i + 1)
      else none := by
  unfold findFrom
  rcases h : hay.length + 1 - i with _ | k
  · have hbig : ¬ (i + needle.length ≤ hay.length) := by omega
    simp [findFromAux, hbig]
  · have hk : hay.length + 1 - (i + 1) = k := by omega
    simp only [findFromAux, hk]

theorem findFrom_some (hay needle : Chars) :
    ∀ i j, findFrom hay needle i = some j →
      i ≤ j ∧ j + needle.length ≤ hay.length ∧ matchesAt hay needle j = true := by
  have key : ∀ fuel i j, findFromAux hay needle fuel i = some j →
      i ≤ j ∧ j + needle.length ≤ hay.length ∧ matchesAt hay needle j = true := by
    intro fuel
    induction fuel with
    | zero => intro i j h; simp [findFromAux] at h
    | succ f ih =>
      intro i j h
      simp only [findFromAux] at h
      split at h
      · split at h
        · cases h
          exact ⟨Nat.le_refl _, by assumption, by assumption⟩
        · rcases ih (i + 1) j h with ⟨h1, h2, h3⟩
          exact ⟨by omega, h2, h3⟩
      · exact absurd h (by simp)
  intro i j h
  exact key _ i j h

theorem findFrom_none (hay needle : Chars) :
    ∀ i, findFrom hay needle i = none →
      ∀ j, i ≤ j → j + needle.length ≤ hay.length → matchesAt hay needle j = false := by
  have key : ∀ N i, hay.length + 1 - i ≤ N → findFrom hay needle i = none →
      ∀ j, i ≤ j → j + needle.length ≤ hay.length → matchesAt hay needle j = false := by
    intro N
    induction N with
    | zero =>
      intro i hN _ j hij hjlen
      omega
    | succ N ih =>
      intro i hN hnone j hij hjlen
      rw [findFrom_unfold] at hnone
      split at hnone
      · split at hnone
        · exact absurd hnone (by simp)
        · rcases Nat.eq_or_lt_of_le hij with rfl | hlt
          · cases hmt : matchesAt hay needle i
            · rfl
            · exact absurd hmt (by assumption)
          · exact ih (i + 1) (by omega) hnone j (by omega) hjlen
      · omega
  intro i h j hij hjlen
  exact key (hay.length + 1 - i) i (Nat.le_refl _) h j hij hjlen

theorem findFrom_isSome_iff (hay needle : Chars) (i : Nat) :
    (findFrom hay needle i).isSome = true ↔
      ∃ j, i ≤ j ∧ j + needle.length ≤ hay.length ∧ matchesAt hay needle j = true := by
  constructor
  · intro h
    rcases Option.isSome_iff_exists.mp h with ⟨j, hj⟩
    exact ⟨j, findFrom_some hay needle i j hj⟩
  · rintro ⟨j, hij, hjlen, hmatch⟩
    rcases hopt : findFrom hay needle i with _ | k
    · have := findFrom_none hay needle i hopt j hij hjlen
      rw [this] at hmatch
      exact absurd hmatch (by simp)
    · simp

/-- Infix-substring test used by the soft-error sniffing (Python `in`). -/
def containsSub (hay needle : Chars) : Bool :=
  (findFrom hay needle 0).isSome

/-- From mermaid_studio._render_async: the four soft-failure marker phrases. -/
def errorMarkers : List Chars :=
  [("Syntax error in text").toList,
   ("Parse error on line").toList,
   ("Lexical error on line").toList,
   ("Expecting \x27").toList]

/-- From mermaid_studio._render_async: combined output is stderr, a newline,
then stdout. -/
def combinedOutput (stderrS stdoutS : Chars) : Chars :=
  stderrS ++ '\n' :: stdoutS

/-- From mermaid_studio._render_async lines 793-818: the render is treated as
successful exactly when the exit code is zero and no marker phrase occurs in
the combined output (otherwise the diagnostics path is taken). -/
def renderSuccess (returncode : Int) (stderrS stdoutS : Chars) : Bool :=
  returncode == 0 &&
    !(errorMarkers.any (fun m => containsSub (combinedOutput stderrS stdoutS) m))

/-- C1: a render is treated as successful if and only if the subprocess exit
status is zero and the combined stderr-then-stdout text contains none of the
four marker phrases; in particular a zero-exit run whose output contains a
marker is a failure. -/
theorem c1_soft_error_success_criterion (returncode : Int) (stderrS stdoutS : Chars) :
    (renderSuccess returncode stderrS stdoutS = true ↔
      (returncode = 0 ∧ ∀ m ∈ errorMarkers,
        ¬ ∃ i, i + m.length ≤ (combinedOutput stderrS stdoutS).length ∧
          matchesAt (combinedOutput stderrS stdoutS) m i = true)) ∧
    (∀ m ∈ errorMarkers, returncode = 0 →
      (∃ i, i + m.length ≤ (combinedOutput stderrS stdoutS).length ∧
        matchesAt (combinedOutput stderrS stdoutS) m i = true) →
      renderSuccess returncode stderrS stdoutS = false) := by
  have hiff : ∀ m : Chars, containsSub (combinedOutput stderrS stdoutS) m = true ↔
      ∃ i, i + m.length ≤ (combinedOutput stderrS stdoutS).length ∧
        matchesAt (combinedOutput stderrS stdoutS) m i = true := by
    intro m
    rw [containsSub, findFrom_isSome_iff]
    constructor
    · rintro ⟨j, _, h2, h3⟩; exact ⟨j, h2, h3⟩
    · rintro ⟨j, h2, h3⟩; exact ⟨j, Nat.zero_le _, h2, h3⟩
  constructor
  · rw [renderSuccess]
    rw [Bool.and_eq_true, Bool.not_eq_true', List.any_eq_false]
    constructor
    · rintro ⟨h0, hmk⟩
      refine ⟨by simpa using h0, ?_⟩
      intro m hm hex
      have := hmk m hm
      rw [(hiff m).mpr hex] at this
      exact absurd this (by simp)
    · rintro ⟨h0, hmk⟩
      refine ⟨by simpa using h0, ?_⟩
      intro m hm
      rcases hc : containsSub (combinedOutput stderrS stdoutS) m with _ | _
      · simp
      · exact absurd ((hiff m).mp hc) (hmk m hm)
  · intro m hm h0 hex
    rw [renderSuccess]
    have : containsSub (combinedOutput stderrS stdoutS) m = true := (hiff m).mpr hex
    have hany : errorMarkers.any
        (fun m => containsSub (combinedOutput stderrS stdoutS) m) = true :=
      List.any_eq_true.mpr ⟨m, hm, this⟩
    simp [hany]

/-- Witness for C1: a run exiting 0 whose stderr is exactly the first marker is
rejected (evaluated concretely), and the characterisation applies to it. -/
theorem c1_witness :
    (renderSuccess 0 (("Syntax error in text").toList) [] = false) ∧
    (renderSuccess 0 (("Syntax error in text").toList) [] = true ↔
      ((0 : Int) = 0 ∧ ∀ m ∈ errorMarkers,
        ¬ ∃ i, i + m.length ≤ (combinedOutput (("Syntax error in text").toList) []).length ∧
          matchesAt (combinedOutput (("Syntax error in text").toList) []) m i = true)) :=
  ⟨(c1_soft_error_success_criterion 0 (("Syntax error in text").toList) []).2
      (("Syntax error in text").toList) (by simp [errorMarkers]) rfl
      ⟨0, by decide, by decide⟩,
   (c1_soft_error_success_criterion 0 (("Syntax error in text").toList) []).1⟩

/-! ## Recent files (mermaid_studio._add_recent_file) -/

/-- From mermaid_studio._add_recent_file lines 567-576: drop every existing
copy of the path, push it to the front, keep the first five entries. -/
def addRecentFile (p : String) (l : List String) : List String :=
  (p :: l.filter (fun q => q ≠ p)).take 5

/-- C8: after adding a path the recent list has at most five entries, no
duplicates (given the maintained list had none), the added path first and
exactly once; adding a sixth distinct path keeps the five most recent. -/
theorem c8_recent_files (p : String) (l : List String) :
    (addRecentFile p l).length ≤ 5 ∧
    (addRecentFile p l).head? = some p ∧
    (l.Nodup → (addRecentFile p l).Nodup) ∧
    (addRecentFile p l).count p = 1 ∧
    (p ∉ l → l.length = 5 → addRecentFile p l = p :: l.take 4) := by
  refine ⟨?_, ?_, ?_, ?_, ?_⟩
  · exact List.length_take_le 5 _
  · rfl
  · intro hnd
    have hf : (l.filter (fun q => q ≠ p)).Nodup := hnd.filter _
    have hp : p ∉ l.filter (fun q => q ≠ p) := by
      intro hmem
      have := List.of_mem_filter hmem
      simp at this
    exact ((List.nodup_cons.mpr ⟨hp, hf⟩).sublist (List.take_sublist 5 _))
  · have hcount : (l.filter (fun q => q ≠ p)).count p = 0 := by
      rw [List.count_eq_zero]
      intro hmem
      have := List.of_mem_filter hmem
      simp at this
    have hsub : ((l.filter (fun q => q ≠ p)).take (5 - 1)).count p ≤
        (l.filter (fun q => q ≠ p)).count p :=
      (List.take_sublist _ _).count_le p
    rw [addRecentFile, List.take_cons (by omega), List.count_cons_self]
    omega
  · intro hnot hlen
    have hfilter : l.filter (fun q => q ≠ p) = l := by
      apply List.filter_eq_self.mpr
      intro a ha
      simp only [ne_eq, decide_eq_true_eq]
      intro hap
      exact hnot (hap ▸ ha)
    rw [addRecentFile, hfilter, List.take_cons (by omega)]

/-- Witness for C8: adding a sixth distinct path to a full list. -/
theorem c8_witness :
    ["e", "d", "c", "b", "a"].Nodup ∧ "f" ∉ ["e", "d", "c", "b", "a"] ∧
    addRecentFile "f" ["e", "d", "c", "b", "a"] = "f" :: ["e", "d", "c", "b", "a"].take 4 ∧
    (addRecentFile "f" ["e", "d", "c", "b", "a"]).Nodup :=
  ⟨by decide, by decide,
   (c8_recent_files "f" ["e", "d", "c", "b", "a"]).2.2.2.2 (by decide) (by decide),
   (c8_recent_files "f" ["e", "d", "c", "b", "a"]).2.2.1 (by decide)⟩

/-! ## Outdent (code_editor._outdent_selection) -/

/-- From code_editor._outdent_selection lines 396-406: look at the first four
characters of the line; when they are four spaces, delete them; otherwise when
the line starts with a tab, delete that tab; otherwise leave the line alone. -/
def outdentLine (l : Chars) : Chars :=
  if l.take 4 = [' ', ' ', ' ', ' '] then l.drop 4
  else if l.head? = some '\t' then l.drop 1
  else l

/-- C9 counterexample: a line with two leading spaces is left unchanged by the
outdent command, while the claim says those two spaces would be removed. -/
theorem c9_counterexample :
    outdentLine ([' ', ' ', 'x']) = [' ', ' ', 'x'] ∧
    outdentLine ([' ', ' ', 'x']) ≠ ['x'] := by
  constructor
  · decide
  · decide

/-- C9 amended: outdent removes four leading spaces exactly when the line
starts with at least four spaces (so it undoes one indent step), removes one
leading tab when the line starts with a tab, and leaves every other line -
including lines with one to three leading spaces - unchanged. -/
theorem c9_outdent (l : Chars) :
    (outdentLine ([' ', ' ', ' ', ' '] ++ l) = l) ∧
    (outdentLine ('\t' :: l) = l) ∧
    (l.take 4 ≠ [' ', ' ', ' ', ' '] → l.head? ≠ some '\t' → outdentLine l = l) := by
  refine ⟨?_, ?_, ?_⟩
  · rw [outdentLine]
    simp
  · rw [outdentLine]
    have h4 : ('\t' :: l).take 4 ≠ [' ', ' ', ' ', ' '] := by
      cases l <;> simp
    simp [h4]
  · intro h4 ht
    rw [outdentLine, if_neg h4, if_neg ht]

/-- Witness for C9: a plain line with no leading whitespace is unchanged, and
the indent round trip holds on it. -/
theorem c9_witness :
    (['a', 'b'].take 4 ≠ [' ', ' ', ' ', ' ']) ∧ (['a', 'b'].head? ≠ some '\t') ∧
    outdentLine (['a', 'b']) = ['a', 'b'] ∧
    outdentLine ([' ', ' ', ' ', ' '] ++ ['a', 'b']) = ['a', 'b'] :=
  ⟨by decide, by decide,
   (c9_outdent (['a', 'b'])).2.2 (by decide) (by decide),
   (c9_outdent (['a', 'b'])).1⟩

/-! ## Error markers (code_editor.highlight_error and highlight_errors) -/

/-- The coordinates produced by one error mark: the tinted line and, when a
column was supplied, the underline start column and span. -/
structure ErrorMark where
  line : Int
  underline : Option (Int × Int)
deriving DecidableEq

/-- From code_editor.highlight_error lines 443-448: clamp the line to at least
1; when a column is given start the underline at max 0 (col - 1) and make the
span at least one character. -/
def highlight_error (line : Int) (col : Option Int) (length : Int) : ErrorMark :=
  { line := max 1 line,
    underline := col.map (fun c => (max 0 (c - 1), max 1 length)) }

/-- From code_editor.highlight_errors lines 450-463: the caret target for a
nonempty item list, computed from the first item with the same clamping. -/
def caretOfItems (items : List (Int × Option Int)) : Option (Int × Int) :=
  match items with
  | [] => none
  | (ln, col) :: _ =>
    some (max 1 ln, max 0 (match col with | none => 0 | some c => c - 1))

/-- From code_editor.highlight_errors: an empty list does nothing; otherwise
every item is marked (with default length 1) and the caret target computed. -/
def highlight_errors (items : List (Int × Option Int)) :
    Option (List ErrorMark × (Int × Int)) :=
  match items with
  | [] => none
  | _ =>
    match caretOfItems items with
    | none => none
    | some caret => some (items.map (fun it => highlight_error it.1 it.2 1), caret)

/-- C10: the error-marking operations are total and clamped for arbitrary
integer inputs: the marked line is at least 1 (and exactly 1 when the input
line is below 1), the underline start is at least 0 (and exactly 0 when the
column is at most 1), the span is at least 1, and highlight_errors yields
clamped marks and caret for any nonempty item list and nothing for the empty
list. -/
theorem c10_error_mark_clamping (line : Int) (col : Option Int) (length : Int)
    (items : List (Int × Option Int)) :
    (1 ≤ (highlight_error line col length).line) ∧
    (line < 1 → (highlight_error line col length).line = 1) ∧
    (∀ u ∈ (highlight_error line col length).underline, 0 ≤ u.1 ∧ 1 ≤ u.2) ∧
    (∀ c, col = some c → c ≤ 1 →
      (highlight_error line col length).underline = some (0, max 1 length)) ∧
    (highlight_errors [] = none) ∧
    (items ≠ [] → ∃ marks caret, highlight_errors items = some (marks, caret) ∧
      marks.length = items.length ∧ 1 ≤ caret.1 ∧ 0 ≤ caret.2) := by
  refine ⟨le_max_left 1 line, ?_, ?_, ?_, rfl, ?_⟩
  · intro hlt
    simp [highlight_error]
    omega
  · intro u hu
    rcases col with _ | c
    · simp [highlight_error] at hu
    · simp [highlight_error] at hu
      subst hu
      exact ⟨le_max_left 0 (c - 1), le_max_left 1 length⟩
  · rintro c rfl hc
    have hmax : max 0 (c - 1) = 0 := by omega
    simp [highlight_error, hmax]
  · intro hne
    rcases items with _ | ⟨⟨ln, c⟩, rest⟩
    · exact absurd rfl hne
    · refine ⟨_, _, rfl, by simp, le_max_left 1 ln, le_max_left 0 _⟩

/-- Witness for C10: a negative line, zero column and negative length are all
clamped. -/
theorem c10_witness :
    ((-3 : Int) < 1 → (highlight_error (-3) (some 0) (-2)).line = 1) ∧
    (∀ c, (some (0 : Int)) = some c → c ≤ 1 →
      (highlight_error (-3) (some 0) (-2)).underline = some (0, max 1 (-2))) ∧
    ([((-3 : Int), some (0 : Int))] ≠ [] → ∃ marks caret,
      highlight_errors [((-3 : Int), some (0 : Int))] = some (marks, caret) ∧
      marks.length = [((-3 : Int), some (0 : Int))].length ∧
      1 ≤ caret.1 ∧ 0 ≤ caret.2) :=
  ⟨(c10_error_mark_clamping (-3) (some 0) (-2) []).2.1,
   (c10_error_mark_clamping (-3) (some 0) (-2) []).2.2.2.1,
   (c10_error_mark_clamping 0 none 0 [((-3 : Int), some (0 : Int))]).2.2.2.2.2⟩

/-! ## Comment toggle (code_editor._toggle_comment) -/

/-- Python whitespace test for the character classes used by strip(). -/
def isPyWs (c : Char) : Bool :=
  c == ' ' || c == '\t' || c == '\n' || c == '\r' || c == '\x0b' || c == '\x0c'

/-- Python str.strip(): drop whitespace from both ends. -/
def pyStrip (s : Chars) : Chars :=
  ((s.dropWhile isPyWs).reverse.dropWhile isPyWs).reverse

/-- The line counts as already commented for the all-commented test: its
stripped text starts with the marker, or it is blank. -/
def lineCommentedOrBlank (l : Chars) : Bool :=
  match pyStrip l with
  | [] => true
  | '%' :: '%' :: _ => true
  | _ => false

/-- Length of the leading run of spaces and tabs on a line. -/
def leadTabSpace (l : Chars) : Nat :=
  (l.takeWhile (fun c => c == ' ' || c == '\t')).length

/-- From code_editor._toggle_comment lines 427-432: the regex match spans the
leading whitespace, the marker and at most one following space, and the DELETE
removes the whole match starting at column zero, so only the text after the
marker (and optional space) survives. -/
def uncommentLine (l : Chars) : Chars :=
  match l.drop (leadTabSpace l) with
  | '%' :: '%' :: ' ' :: r => r
  | '%' :: '%' :: r => r
  | _ => l

/-- From code_editor._toggle_comment lines 434-436: insert the marker and one
space immediately after the leading whitespace. -/
def commentLine (l : Chars) : Chars :=
  l.take (leadTabSpace l) ++ '%' :: '%' :: ' ' :: l.drop (leadTabSpace l)

/-- From code_editor._toggle_comment lines 417-437: when every touched line is
already commented or blank, uncomment each line, otherwise comment each. -/
def toggleComment (touched : List Chars) : List Chars :=
  if touched.all lineCommentedOrBlank then touched.map uncommentLine
  else touched.map commentLine

/-- C3 failing input: toggling an indented line twice deletes the leading
whitespace, because the uncomment step removes the whole regex match starting
from column zero instead of only the marker; the round-trip law fails. -/
theorem c3_round_trip_failure :
    toggleComment (toggleComment [([' ', ' ', ' ', ' ', 'A'])]) = [(['A'])] ∧
    toggleComment [([' ', ' ', ' ', ' ', 'A'])] =
      [([' ', ' ', ' ', ' ', '%', '%', ' ', 'A'])] ∧
    toggleComment (toggleComment [([' ', ' ', ' ', ' ', 'A'])]) ≠
      [([' ', ' ', ' ', ' ', 'A'])] := by
  refine ⟨by decide, by decide, by decide⟩

/-! ## Preview zoom (preview_pane._zoom_at) -/

/-- From preview_pane lines 53-54: the zoom bounds. -/
def minZoom : ℚ := 5 / 100

/-- Maximum zoom factor of the preview pane. -/
def maxZoom : ℚ := 8

/-- From preview_pane._zoom_at lines 196-214: clamp the scaled zoom into the
bounds and ignore the step entirely when the clamped value is within 1e-6 of
the current zoom. Wheel up uses factor 11/10, wheel down factor 9/10. -/
def zoomStep (factor z : ℚ) : ℚ :=
  let nz := min maxZoom (max minZoom (z * factor))
  if |nz - z| < 1 / 1000000 then z else nz

/-- C7 counterexample: from zoom 1 a downward wheel step produces 9/10, not the
1/(11/10) = 10/11 the claim requires. -/
theorem c7_counterexample :
    zoomStep (9 / 10) 1 = 9 / 10 ∧ (9 / 10 : ℚ) ≠ 1 / (11 / 10) := by
  constructor
  · rw [zoomStep]
    have hclamp : min maxZoom (max minZoom ((1 : ℚ) * (9 / 10))) = 9 / 10 := by
      rw [minZoom, maxZoom]
      norm_num
    simp only [hclamp]
    have hgap : ¬ |(9 / 10 : ℚ) - 1| < 1 / 1000000 := by
      rw [abs_sub_lt_iff]
      norm_num
    rw [if_neg hgap]
  · norm_num

/-- One zoom step keeps the factor inside the bounds whenever it starts there. -/
theorem zoomStep_bounds (factor z : ℚ) (h1 : minZoom ≤ z) (h2 : z ≤ maxZoom) :
    minZoom ≤ zoomStep factor z ∧ zoomStep factor z ≤ maxZoom := by
  rw [zoomStep]
  split
  · exact ⟨h1, h2⟩
  · constructor
    · apply le_min
      · rw [minZoom, maxZoom]; norm_num
      · exact le_max_left minZoom _
    · exact min_le_left _ _

/-- C7 amended: one upward wheel step multiplies the zoom by 1.10 and one
downward step multiplies it by 0.90 (not dividing by 1.10), the result clamped
into [0.05, 8.0] with a no-change guard when the clamped value is within 1e-6
of the current zoom; any sequence of wheel steps starting inside the bounds
stays inside them. -/
theorem c7_zoom_step (z : ℚ) (factors : List ℚ) :
    (minZoom ≤ z → z ≤ maxZoom →
      minZoom ≤ factors.foldl (fun a f => zoomStep f a) z ∧
      factors.foldl (fun a f => zoomStep f a) z ≤ maxZoom) ∧
    (minZoom ≤ z → z * (11 / 10) ≤ maxZoom → zoomStep (11 / 10) z = z * (11 / 10)) ∧
    (minZoom ≤ z * (9 / 10) → z ≤ maxZoom → zoomStep (9 / 10) z = z * (9 / 10)) := by
  refine ⟨?_, ?_, ?_⟩
  · intro h1 h2
    induction factors generalizing z with
    | nil => exact ⟨h1, h2⟩
    | cons f fs ih =>
      rcases zoomStep_bounds f z h1 h2 with ⟨hb1, hb2⟩
      exact ih (zoomStep f z) hb1 hb2
  · intro h1 h2
    rw [zoomStep]
    have hz : (1 : ℚ) / 20 ≤ z := by
      rw [minZoom] at h1; norm_num at h1 ⊢; linarith
    have hlow : minZoom ≤ z * (11 / 10) := by
      rw [minZoom]; norm_num; linarith
    have hclamp : min maxZoom (max minZoom (z * (11 / 10))) = z * (11 / 10) := by
      rw [max_eq_right hlow, min_eq_right h2]
    rw [hclamp]
    have hgap : ¬ |z * (11 / 10) - z| < 1 / 1000000 := by
      rw [abs_sub_lt_iff]
      intro hcon
      rcases hcon with ⟨hc1, _⟩
      nlinarith
    rw [if_neg hgap]
  · intro h1 h2
    rw [zoomStep]
    have hz : (1 : ℚ) / 18 ≤ z := by
      rw [minZoom] at h1; norm_num at h1 ⊢; linarith
    have hup : z * (9 / 10) ≤ maxZoom := by
      have : z * (9 / 10) ≤ z := by nlinarith
      linarith
    have hclamp : min maxZoom (max minZoom (z * (9 / 10))) = z * (9 / 10) := by
      rw [max_eq_right h1, min_eq_right hup]
    rw [hclamp]
    have hgap : ¬ |z * (9 / 10) - z| < 1 / 1000000 := by
      rw [abs_sub_lt_iff]
      intro hcon
      rcases hcon with ⟨_, hc2⟩
      nlinarith
    rw [if_neg hgap]

/-- Witness for C7: from zoom 1, an up step then a down step stays in bounds,
and the single steps evaluate to the code factors. -/
theorem c7_witness :
    (minZoom ≤ (1 : ℚ) ∧ (1 : ℚ) ≤ maxZoom) ∧
    (minZoom ≤ [(11 / 10 : ℚ), 9 / 10].foldl (fun a f => zoomStep f a) 1 ∧
      [(11 / 10 : ℚ), 9 / 10].foldl (fun a f => zoomStep f a) 1 ≤ maxZoom) ∧
    zoomStep (11 / 10) 1 = 11 / 10 ∧
    zoomStep (9 / 10) 1 = 9 / 10 :=
  ⟨⟨by rw [minZoom]; norm_num, by rw [maxZoom]; norm_num⟩,
   ((c7_zoom_step 1 [(11 / 10 : ℚ), 9 / 10]).1 (by rw [minZoom]; norm_num) (by rw [maxZoom]; norm_num)),
   (by simpa using ((c7_zoom_step 1 []).2.1 (by rw [minZoom]; norm_num) (by rw [maxZoom]; norm_num))),
   (by simpa using ((c7_zoom_step 1 []).2.2 (by rw [minZoom]; norm_num) (by rw [maxZoom]; norm_num)))⟩

/-! ## Diagnostic parsing (mermaid_studio._parse_mermaid_errors) -/

/-- Case-insensitive match of a lowercase pattern at index i. -/
def ciMatchesAt (hay : Chars) (kw : Chars) (i : Nat) : Bool :=
  decide (((hay.drop i).take kw.length).map Char.toLower = kw)

/-- Decimal digit test for the regex class of digits. -/
def isDigitCh (c : Char) : Bool :=
  '0' ≤ c && c ≤ '9'

/-- Regex word-character test (letters, digits, underscore). -/
def isWordCh (c : Char) : Bool :=
  c.isAlpha || isDigitCh c || c == '_'

/-- Length of the maximal whitespace run starting at index i. -/
def wsRun (s : Chars) (i : Nat) : Nat :=
  ((s.drop i).takeWhile isPyWs).length

/-- Length of the maximal digit run starting at index i. -/
def digitRun (s : Chars) (i : Nat) : Nat :=
  ((s.drop i).takeWhile isDigitCh).length

/-- The digits of the maximal digit run starting at index i. -/
def digitsAt (s : Chars) (i : Nat) : Chars :=
  (s.drop i).takeWhile isDigitCh

/-- Value of a digit string, as Python int() computes it. -/
def natOfDigits (ds : Chars) : Nat :=
  ds.foldl (fun a c => a * 10 + (c.toNat - ('0').toNat)) 0

/-- Word boundary immediately before index p. -/
def bdryBefore (s : Chars) (p : Nat) : Bool :=
  p == 0 || !(isWordCh (s.getD (p - 1) ' '))

/-- Word boundary immediately after the character ending at index p. -/
def bdryAfter (s : Chars) (p : Nat) : Bool :=
  p == s.length || !(isWordCh (s.getD p ' '))

/-- One attempt of the primary pattern tail at index r: the word line, at least
one whitespace character, then a maximal nonempty digit run; returns the value
and the match end. -/
def tryLineNumAt (s : Chars) (r : Nat) : Option (Nat × Nat) :=
  if ciMatchesAt s (("line").toList) r then
    let w := wsRun s (r + 4)
    if w = 0 then none
    else
      let d := digitRun s (r + 4 + w)
      if d = 0 then none
      else some (natOfDigits (digitsAt s (r + 4 + w)), r + 4 + w + d)
  else none

/-- Lazy gap of the primary pattern: scan forward for the first index where
the line-number tail matches. -/
def findLineNumFromAux (s : Chars) : Nat → Nat → Option (Nat × Nat)
  | 0, _ => none
  | fuel + 1, r =>
    match tryLineNumAt s r with
    | some v => some v
    | none => if r < s.length then findLineNumFromAux s fuel (r + 1) else none

/-- First position at or after r where the line-number tail matches. -/
def findLineNumFrom (s : Chars) (r : Nat) : Option (Nat × Nat) :=
  findLineNumFromAux s (s.length + 1 - r) r

/-- One attempt of the full primary pattern at index p: Parse or Lexical (case
insensitive), whitespace, error, then lazily the nearest line-number tail. -/
def tryPrimaryAt (s : Chars) (p : Nat) : Option (Nat × Nat) :=
  let kwEnd : Option Nat :=
    if ciMatchesAt s (("parse").toList) p then some (p + 5)
    else if ciMatchesAt s (("lexical").toList) p then some (p + 7)
    else none
  match kwEnd with
  | none => none
  | some q =>
    let w := wsRun s q
    if w = 0 then none
    else if ciMatchesAt s (("error").toList) (q + w) then
      findLineNumFrom s (q + w + 5)
    else none

/-- Non-overlapping scan of the primary pattern, continuing after each match
end as finditer does. -/
def scanPrimaryAux (s : Chars) : Nat → Nat → List Nat
  | 0, _ => []
  | fuel + 1, p =>
    if p ≤ s.length then
      match tryPrimaryAt s p with
      | some (v, e) => v :: scanPrimaryAux s fuel (max e (p + 1))
      | none => scanPrimaryAux s fuel (p + 1)
    else []

/-- All line numbers captured by the primary Parse or Lexical error pattern. -/
def scanPrimary (s : Chars) : List Nat :=
  scanPrimaryAux s (s.length + 1) 0

/-- One attempt of the fallback pattern at index p: a word boundary, the word
line, whitespace, digits, and a word boundary after the digits. -/
def tryFallbackAt (s : Chars) (p : Nat) : Option (Nat × Nat) :=
  if bdryBefore s p && ciMatchesAt s (("line").toList) p then
    let w := wsRun s (p + 4)
    if w = 0 then none
    else
      let d := digitRun s (p + 4 + w)
      if d = 0 then none
      else if bdryAfter s (p + 4 + w + d) then
        some (natOfDigits (digitsAt s (p + 4 + w)), p + 4 + w + d)
      else none
  else none

/-- Non-overlapping scan of the fallback bare line-N pattern. -/
def scanFallbackAux (s : Chars) : Nat → Nat → List Nat
  | 0, _ => []
  | fuel + 1, p =>
    if p ≤ s.length then
      match tryFallbackAt s p with
      | some (v, e) => v :: scanFallbackAux s fuel (max e (p + 1))
      | none => scanFallbackAux s fuel (p + 1)
    else []

/-- All line numbers captured by the fallback bare line-N pattern. -/
def scanFallback (s : Chars) : List Nat :=
  scanFallbackAux s (s.length + 1) 0

/-- One attempt of the column pattern at index p. -/
def tryColumnAt (s : Chars) (p : Nat) : Option Nat :=
  if bdryBefore s p && ciMatchesAt s (("column").toList) p then
    let w := wsRun s (p + 6)
    if w = 0 then none
    else
      let d := digitRun s (p + 6 + w)
      if d = 0 then none
      else if bdryAfter s (p + 6 + w + d) then
        some (natOfDigits (digitsAt s (p + 6 + w)))
      else none
  else none

/-- Search for the first column mention, as re.search finds only the first
match. -/
def searchColumnAux (s : Chars) : Nat → Nat → Option Nat
  | 0, _ => none
  | fuel + 1, p =>
    match tryColumnAt s p with
    | some v => some v
    | none => if p < s.length then searchColumnAux s fuel (p + 1) else none

/-- The single global column number, when one occurs in the text. -/
def searchColumn (s : Chars) : Option Nat :=
  searchColumnAux s (s.length + 1) 0

/-- Python str.splitlines restricted to the line terminators that occur in
subprocess text output. -/
def splitLinesGo : Chars → Chars → List Chars
  | [], acc => (match acc with | [] => [] | _ => [acc.reverse])
  | '\r' :: '\n' :: rest, acc => acc.reverse :: splitLinesGo rest []
  | c :: rest, acc =>
    if c == '\n' || c == '\r' || c == '\x0b' || c == '\x0c' then
      acc.reverse :: splitLinesGo rest []
    else splitLinesGo rest (c :: acc)

/-- Split a text into its lines, with no trailing empty line. -/
def splitLinesPy (s : Chars) : List Chars :=
  splitLinesGo s []

/-- Python sorted(set(...)) on the collected numbers: deduplicate, then sort
ascending. -/
def sortedDedup (l : List Nat) : List Nat :=
  List.insertionSort (· ≤ ·) l.dedup

/-- From _parse_mermaid_errors lines 950-963: the primary scan, with the
fallback used only when the primary scan found nothing. -/
def collectedLineNums (full : Chars) : List Nat :=
  let l1 := scanPrimary full
  if l1 = [] then scanFallback full else l1

/-- Result triple of the diagnostic parser. -/
structure MermaidDiag where
  items : List (Nat × Option Nat)
  summary : Chars
  fullText : Chars
deriving DecidableEq

/-- From mermaid_studio._parse_mermaid_errors lines 941-981: strip the
combined text, collect line numbers (with fallback), find the single first
column, deduplicate and sort, pair every line with that column, build the
three-line summary, and substitute the fixed texts when everything is blank. -/
def parseMermaidErrors (stderrS stdoutS : Chars) : MermaidDiag :=
  let full := pyStrip (stderrS ++ '\n' :: stdoutS)
  let lns := collectedLineNums full
  let col := searchColumn full
  let uniq := sortedDedup lns
  let items := uniq.map (fun ln => (ln, col))
  let nonempty := ((splitLinesPy full).map pyStrip).filter (fun l => l ≠ [])
  let summary := if nonempty = [] then ("Mermaid render error").toList
                 else List.intercalate ((" | ").toList) (nonempty.take 3)
  let fullText := if full = [] then ("No error text").toList else full
  ⟨items, summary, fullText⟩

theorem sortedDedup_sorted_lt (l : List Nat) :
    List.Sorted (· < ·) (sortedDedup l) := by
  have hs : List.Sorted (· ≤ ·) (sortedDedup l) := List.sorted_insertionSort _ _
  have hperm : List.Perm (List.insertionSort (· ≤ ·) l.dedup) l.dedup :=
    List.perm_insertionSort _ _
  have hnd : (sortedDedup l).Nodup :=
    (hperm.nodup_iff).mpr (List.nodup_dedup l)
  have hand := List.Pairwise.and hs hnd
  exact hand.imp (fun h => lt_of_le_of_ne h.1 h.2)

theorem sortedDedup_mem (l : List Nat) (n : Nat) :
    n ∈ sortedDedup l ↔ n ∈ l := by
  rw [sortedDedup]
  rw [(List.perm_insertionSort (· ≤ ·) l.dedup).mem_iff]
  exact List.mem_dedup

/-- C2: the diagnostic parser returns the ascending duplicate-free list of the
collected line numbers (primary scan with bare line-N fallback), each paired
with the single first column mention; the summary joins the first three
non-blank (stripped) lines of the combined text, and entirely blank combined
text yields the fixed render-error summary and the fixed full text. -/
theorem c2_diagnostic_parsing (stderrS stdoutS : Chars) :
    List.Sorted (· < ·) ((parseMermaidErrors stderrS stdoutS).items.map Prod.fst) ∧
    ((parseMermaidErrors stderrS stdoutS).items.map Prod.fst).Nodup ∧
    (∀ n : Nat, n ∈ (parseMermaidErrors stderrS stdoutS).items.map Prod.fst ↔
      n ∈ collectedLineNums (pyStrip (stderrS ++ '\n' :: stdoutS))) ∧
    (∀ it ∈ (parseMermaidErrors stderrS stdoutS).items,
      it.2 = searchColumn (pyStrip (stderrS ++ '\n' :: stdoutS))) ∧
    ((parseMermaidErrors stderrS stdoutS).summary =
      if ((splitLinesPy (pyStrip (stderrS ++ '\n' :: stdoutS))).map pyStrip).filter
          (fun l => l ≠ []) = []
      then ("Mermaid render error").toList
      else List.intercalate ((" | ").toList)
        ((((splitLinesPy (pyStrip (stderrS ++ '\n' :: stdoutS))).map pyStrip).filter
          (fun l => l ≠ [])).take 3)) ∧
    (pyStrip (stderrS ++ '\n' :: stdoutS) = [] →
      (parseMermaidErrors stderrS stdoutS).summary = ("Mermaid render error").toList ∧
      (parseMermaidErrors stderrS stdoutS).fullText = ("No error text").toList) ∧
    (pyStrip (stderrS ++ '\n' :: stdoutS) ≠ [] →
      (parseMermaidErrors stderrS stdoutS).fullText =
        pyStrip (stderrS ++ '\n' :: stdoutS)) := by
  have hmap : (parseMermaidErrors stderrS stdoutS).items.map Prod.fst =
      sortedDedup (collectedLineNums (pyStrip (stderrS ++ '\n' :: stdoutS))) := by
    rw [parseMermaidErrors]
    rw [List.map_map]
    exact List.map_id _
  refine ⟨?_, ?_, ?_, ?_, ?_, ?_, ?_⟩
  · rw [hmap]; exact sortedDedup_sorted_lt _
  · rw [hmap]
    exact ((List.perm_insertionSort (· ≤ ·) _).nodup_iff).mpr (List.nodup_dedup _)
  · intro n
    rw [hmap]
    exact sortedDedup_mem _ n
  · intro it hit
    rw [parseMermaidErrors] at hit
    simp only [List.mem_map] at hit
    rcases hit with ⟨ln, _, rfl⟩
    rfl
  · rfl
  · intro hblank
    constructor
    · rw [parseMermaidErrors]
      simp only [hblank]
      rfl
    · rw [parseMermaidErrors]
      simp [hblank]
  · intro hne
    rw [parseMermaidErrors]
    simp only [if_neg hne]

/-- Witness for C2: the spec example Parse error on line 3 with column 5 is
parsed into the single item (3, 5), and the structural properties apply to
it. -/
theorem c2_witness :
    (parseMermaidErrors (("Parse error on line 3: bad\ncolumn 5").toList) []).items =
      [(3, some 5)] ∧
    List.Sorted (· < ·)
      ((parseMermaidErrors (("Parse error on line 3: bad\ncolumn 5").toList) []).items.map
        Prod.fst) :=
  ⟨by decide,
   (c2_diagnostic_parsing (("Parse error on line 3: bad\ncolumn 5").toList) []).1⟩

/-! ## Replace All (find_dialog._replace_all) -/

theorem findFrom_cons_shift_aux (c : Char) (t needle : Chars) :
    ∀ fuel i, findFromAux (c :: t) needle fuel (i + 1) =
      (findFromAux t needle fuel i).map (· + 1) := by
  intro fuel
  induction fuel with
  | zero => intro i; rfl
  | succ f ih =>
    intro i
    simp only [findFromAux]
    have hm : matchesAt (c :: t) needle (i + 1) = matchesAt t needle i := by
      simp [matchesAt, List.drop_succ_cons]
    rw [hm]
    by_cases h : i + needle.length ≤ t.length
    · rw [if_pos (by simp [List.length_cons]; omega), if_pos h]
      by_cases hmt : matchesAt t needle i
      · rw [if_pos hmt, if_pos hmt]; rfl
      · rw [if_neg hmt, if_neg hmt]
        exact ih (i + 1)
    · rw [if_neg (by simp [List.length_cons]; omega), if_neg h]
      rfl

theorem findFrom_cons_shift (c : Char) (t needle : Chars) (i : Nat) :
    findFrom (c :: t) needle (i + 1) = (findFrom t needle i).map (· + 1) := by
  rw [findFrom, findFrom]
  have hfuel : (c :: t).length + 1 - (i + 1) = t.length + 1 - i := by
    simp [List.length_cons]
  rw [hfuel]
  exact findFrom_cons_shift_aux c t needle _ i

/-- Fuel-based collection of all non-overlapping matches from an index on,
mirroring the search loop of find_dialog._replace_all lines 132-145. -/
def findAllFromAux (hay needle : Chars) : Nat → Nat → List Nat
  | 0, _ => []
  | fuel + 1, i =>
    match findFrom hay needle i with
    | none => []
    | some j => j :: findAllFromAux hay needle fuel (j + needle.length)

/-- All non-overlapping match offsets of the needle at or after index i,
scanned left to right continuing after each match. -/
def findAllFrom (hay needle : Chars) (i : Nat) : List Nat :=
  if needle.length = 0 then []
  else findAllFromAux hay needle (hay.length + 1 - i) i

theorem findFrom_none_of_past (hay needle : Chars) (i : Nat) (h : hay.length < i) :
    findFrom hay needle i = none := by
  rw [findFrom_unfold]
  rw [if_neg (by omega)]

theorem findAllFromAux_mono (hay needle : Chars) (hn : needle.length ≠ 0) :
    ∀ f1 f2 i, hay.length + 1 - i ≤ f1 → hay.length + 1 - i ≤ f2 →
      findAllFromAux hay needle f1 i = findAllFromAux hay needle f2 i := by
  intro f1
  induction f1 with
  | zero =>
    intro f2 i h1 _
    have hnone : findFrom hay needle i = none :=
      findFrom_none_of_past hay needle i (by omega)
    cases f2 with
    | zero => rfl
    | succ g => simp [findAllFromAux, hnone]
  | succ f ih =>
    intro f2 i h1 h2
    cases f2 with
    | zero =>
      have hnone : findFrom hay needle i = none :=
        findFrom_none_of_past hay needle i (by omega)
      simp [findAllFromAux, hnone]
    | succ g =>
      simp only [findAllFromAux]
      rcases hf : findFrom hay needle i with _ | j
      · rfl
      · rcases findFrom_some hay needle i j hf with ⟨hij, hjlen, _⟩
        have hn1 : 1 ≤ needle.length := Nat.pos_of_ne_zero hn
        show j :: findAllFromAux hay needle f (j + needle.length) =
          j :: findAllFromAux hay needle g (j + needle.length)
        rw [ih g (j + needle.length) (by omega) (by omega)]

theorem findAllFrom_unfold (hay needle : Chars) (hn : needle.length ≠ 0) (i : Nat) :
    findAllFrom hay needle i =
      match findFrom hay needle i with
      | none => []
      | some j => j :: findAllFrom hay needle (j + needle.length) := by
  rw [findAllFrom, if_neg hn]
  rcases hlen : hay.length + 1 - i with _ | k
  · have hnone : findFrom hay needle i = none :=
      findFrom_none_of_past hay needle i (by omega)
    simp [findAllFromAux, hnone]
  · simp only [findAllFromAux]
    rcases hf : findFrom hay needle i with _ | j
    · rfl
    · rcases findFrom_some hay needle i j hf with ⟨hij, hjlen, _⟩
      have hn1 : 1 ≤ needle.length := Nat.pos_of_ne_zero hn
      show j :: findAllFromAux hay needle k (j + needle.length) =
        j :: findAllFrom hay needle (j + needle.length)
      rw [findAllFrom, if_neg hn]
      rw [findAllFromAux_mono hay needle hn k (hay.length + 1 - (j + needle.length))
        (j + needle.length) (by omega) (by omega)]

theorem findAllFrom_mem (hay needle : Chars) (hn : needle.length ≠ 0) :
    ∀ i j, j ∈ findAllFrom hay needle i →
      i ≤ j ∧ j + needle.length ≤ hay.length ∧ matchesAt hay needle j = true := by
  have key : ∀ fuel i j, j ∈ findAllFromAux hay needle fuel i →
      i ≤ j ∧ j + needle.length ≤ hay.length ∧ matchesAt hay needle j = true := by
    intro fuel
    induction fuel with
    | zero => intro i j h; simp [findAllFromAux] at h
    | succ f ih =>
      intro i j h
      simp only [findAllFromAux] at h
      rcases hf : findFrom hay needle i with _ | j0
      · rw [hf] at h; simp at h
      · rw [hf] at h
        rcases List.mem_cons.mp h with rfl | hmem
        · exact findFrom_some hay needle i j hf
        · rcases findFrom_some hay needle i j0 hf with ⟨hij0, _, _⟩
          rcases ih _ j hmem with ⟨h1, h2, h3⟩
          exact ⟨by omega, h2, h3⟩
  intro i j h
  rw [findAllFrom, if_neg hn] at h
  exact key _ i j h

theorem findAllFromAux_cons_shift (c : Char) (t needle : Chars) :
    ∀ fuel i, findAllFromAux (c :: t) needle fuel (i + 1) =
      (findAllFromAux t needle fuel i).map (· + 1) := by
  intro fuel
  induction fuel with
  | zero => intro i; rfl
  | succ f ih =>
    intro i
    simp only [findAllFromAux]
    rw [findFrom_cons_shift]
    rcases hf : findFrom t needle i with _ | j
    · rfl
    · show (j + 1) :: findAllFromAux (c :: t) needle f (j + 1 + needle.length) =
        ((j :: findAllFromAux t needle f (j + needle.length)).map (· + 1))
      simp only [List.map_cons]
      have h2 : j + 1 + needle.length = j + needle.length + 1 := by omega
      rw [h2, ih (j + needle.length)]

theorem findAllFrom_cons_shift (c : Char) (t needle : Chars) (hn : needle.length ≠ 0)
    (i : Nat) :
    findAllFrom (c :: t) needle (i + 1) = (findAllFrom t needle i).map (· + 1) := by
  rw [findAllFrom, findAllFrom, if_neg hn, if_neg hn]
  have hfuel : (c :: t).length + 1 - (i + 1) = t.length + 1 - i := by
    simp [List.length_cons]
  rw [hfuel]
  exact findAllFromAux_cons_shift c t needle _ i

theorem findAllFrom_shift (needle : Chars) (hn : needle.length ≠ 0) :
    ∀ (k : Nat) (hay : Chars),
      findAllFrom hay needle k = (findAllFrom (hay.drop k) needle 0).map (· + k) := by
  intro k
  induction k with
  | zero =>
    intro hay
    have hid : ((· + 0) : Nat → Nat) = id := funext fun x => Nat.add_zero x
    rw [List.drop_zero, hid, List.map_id]
  | succ k ih =>
    intro hay
    cases hay with
    | nil =>
      have hn1 : 1 ≤ needle.length := Nat.pos_of_ne_zero hn
      have h1 : findAllFrom ([] : Chars) needle (k + 1) = [] := by
        rw [findAllFrom_unfold _ _ hn,
          findFrom_none_of_past ([] : Chars) needle (k + 1) (by simp)]
      have h2 : findAllFrom ([] : Chars) needle 0 = [] := by
        have hz : findFrom ([] : Chars) needle 0 = none := by
          rw [findFrom_unfold]
          rw [if_neg (by simp only [List.length_nil]; omega)]
        rw [findAllFrom_unfold _ _ hn, hz]
      simp [h1, h2]
    | cons c t =>
      rw [findAllFrom_cons_shift c t needle hn k, ih t]
      simp only [List.drop_succ_cons, List.map_map]
      rfl

/-- One reverse-order edit of _replace_all lines 148-150: delete the needle
occurrence at the offset and insert the replacement there. -/
def editAt (repl : Chars) (n : Nat) (acc : Chars) (off : Nat) : Chars :=
  acc.take off ++ repl ++ acc.drop (off + n)

/-- From find_dialog._replace_all lines 147-150: apply the edits in reverse
document order, last match first. -/
def applyEdits (hay repl : Chars) (n : Nat) (offs : List Nat) : Chars :=
  offs.reverse.foldl (editAt repl n) hay

/-- From find_dialog._replace_all lines 124-150: collect every non-overlapping
match from the buffer start, then rewrite them bottom-up; an empty search
string is a no-op (guarded on entry). -/
def replaceAllModel (hay needle repl : Chars) : Chars :=
  if needle.length = 0 then hay
  else applyEdits hay repl needle.length (findAllFrom hay needle 0)

/-- Fuel-based simultaneous replace-all used as the specification notion. -/
def simReplaceAux (needle repl : Chars) : Nat → Chars → Chars
  | 0, hay => hay
  | fuel + 1, hay =>
    if needle.length = 0 then hay
    else if hay.length < needle.length then hay
    else if matchesAt hay needle 0 then
      repl ++ simReplaceAux needle repl fuel (hay.drop needle.length)
    else
      match hay with
      | [] => []
      | c :: rest => c :: simReplaceAux needle repl fuel rest

/-- Simultaneous replace-all in one left-to-right pass, the specification
notion the reverse-order implementation is compared against. -/
def simultaneousReplace (needle repl hay : Chars) : Chars :=
  simReplaceAux needle repl hay.length hay

theorem simReplaceAux_mono (needle repl : Chars) :
    ∀ f1 f2 hay, hay.length ≤ f1 → hay.length ≤ f2 →
      simReplaceAux needle repl f1 hay = simReplaceAux needle repl f2 hay := by
  intro f1
  induction f1 with
  | zero =>
    intro f2 hay h1 _
    have hhay : hay = [] := List.length_eq_zero.mp (by omega)
    subst hhay
    cases f2 with
    | zero => rfl
    | succ g =>
      simp only [simReplaceAux]
      by_cases hn : needle.length = 0
      · rw [if_pos hn]
      · rw [if_neg hn, if_pos (by simp; omega)]
  | succ f ih =>
    intro f2 hay h1 h2
    cases f2 with
    | zero =>
      have hhay : hay = [] := List.length_eq_zero.mp (by omega)
      subst hhay
      simp only [simReplaceAux]
      by_cases hn : needle.length = 0
      · rw [if_pos hn]
      · rw [if_neg hn, if_pos (by simp; omega)]
    | succ g =>
      simp only [simReplaceAux]
      by_cases hn : needle.length = 0
      · rw [if_pos hn, if_pos hn]
      · rw [if_neg hn, if_neg hn]
        by_cases hlt : hay.length < needle.length
        · rw [if_pos hlt, if_pos hlt]
        · rw [if_neg hlt, if_neg hlt]
          by_cases hm : matchesAt hay needle 0
          · rw [if_pos hm, if_pos hm]
            rw [ih g (hay.drop needle.length)
              (by rw [List.length_drop]; omega) (by rw [List.length_drop]; omega)]
          · rw [if_neg hm, if_neg hm]
            cases hay with
            | nil => rfl
            | cons c rest =>
              simp only [List.length_cons] at h1 h2
              show c :: simReplaceAux needle repl f rest =
                c :: simReplaceAux needle repl g rest
              rw [ih g rest (by omega) (by omega)]

theorem simultaneousReplace_unfold (needle repl hay : Chars) :
    simultaneousReplace needle repl hay =
      if needle.length = 0 then hay
      else if hay.length < needle.length then hay
      else if matchesAt hay needle 0 then
        repl ++ simultaneousReplace needle repl (hay.drop needle.length)
      else
        match hay with
        | [] => []
        | c :: rest => c :: simultaneousReplace needle repl rest := by
  rw [simultaneousReplace]
  cases hay with
  | nil =>
    simp only [List.length_nil, simReplaceAux]
    by_cases hn : needle.length = 0
    · rw [if_pos hn]
    · rw [if_neg hn, if_pos (by omega)]
  | cons c t =>
    simp only [List.length_cons, simReplaceAux]
    by_cases hn : needle.length = 0
    · rw [if_pos hn, if_pos hn]
    · rw [if_neg hn, if_neg hn]
      by_cases hlt : t.length + 1 < needle.length
      · rw [if_pos hlt, if_pos hlt]
      · rw [if_neg hlt, if_neg hlt]
        by_cases hm : matchesAt (c :: t) needle 0
        · rw [if_pos hm, if_pos hm]
          rw [simReplaceAux_mono needle repl (t.length) ((c :: t).drop needle.length).length
            ((c :: t).drop needle.length)
            (by rw [List.length_drop]; simp [List.length_cons]; omega) (Nat.le_refl _)]
          rfl
        · rw [if_neg hm, if_neg hm]
          rfl

theorem simultaneousReplace_of_none (needle repl : Chars) (hn : needle.length ≠ 0) :
    ∀ hay, findFrom hay needle 0 = none → simultaneousReplace needle repl hay = hay := by
  intro hay
  induction hay with
  | nil =>
    intro _
    rw [simultaneousReplace_unfold, if_neg hn, if_pos (by simp; omega)]
  | cons c t ih =>
    intro hnone
    rw [simultaneousReplace_unfold, if_neg hn]
    by_cases hlt : (c :: t).length < needle.length
    · rw [if_pos hlt]
    · rw [if_neg hlt]
      rw [findFrom_unfold] at hnone
      rw [if_pos (show 0 + needle.length ≤ (c :: t).length by omega)] at hnone
      split at hnone
      · exact absurd hnone (by simp)
      · rw [if_neg (by assumption)]
        have h1 : findFrom t needle 0 = none := by
          rcases hfo : findFrom t needle 0 with _ | j
          · rfl
          · rw [findFrom_cons_shift c t needle 0, hfo] at hnone
            simp at hnone
        show c :: simultaneousReplace needle repl t = c :: t
        rw [ih h1]

theorem simultaneousReplace_first_match (needle repl : Chars) (hn : needle.length ≠ 0) :
    ∀ j hay, findFrom hay needle 0 = some j →
      simultaneousReplace needle repl hay =
        hay.take j ++ repl ++ simultaneousReplace needle repl
          (hay.drop (j + needle.length)) := by
  intro j
  induction j with
  | zero =>
    intro hay hf
    rcases findFrom_some hay needle 0 0 hf with ⟨_, hlen, hm⟩
    rw [simultaneousReplace_unfold, if_neg hn, if_neg (by omega), if_pos hm]
    simp
  | succ j ih =>
    intro hay hf
    rcases findFrom_some hay needle 0 (j + 1) hf with ⟨_, hjlen, _⟩
    cases hay with
    | nil => simp at hjlen
    | cons c t =>
      rw [findFrom_unfold] at hf
      by_cases h0 : 0 + needle.length ≤ (c :: t).length
      · rw [if_pos h0] at hf
        by_cases hm0 : matchesAt (c :: t) needle 0
        · rw [if_pos hm0] at hf
          exact absurd hf (by simp)
        · rw [if_neg hm0] at hf
          have ht : findFrom t needle 0 = some j := by
            rw [findFrom_cons_shift c t needle 0] at hf
            rcases hfo : findFrom t needle 0 with _ | j0
            · rw [hfo] at hf; simp at hf
            · rw [hfo] at hf
              simp at hf
              rw [hf]
          rw [simultaneousReplace_unfold, if_neg hn, if_neg (by omega), if_neg hm0]
          show c :: simultaneousReplace needle repl t = _
          rw [ih t ht]
          have hidx : j + 1 + needle.length = (j + needle.length) + 1 := by omega
          rw [hidx]
          simp [List.take_succ_cons, List.drop_succ_cons]
      · rw [if_neg h0] at hf
        exact absurd hf (by simp)

theorem foldl_editAt_shift (repl : Chars) (n : Nat) (h : Chars) :
    ∀ (l : List Nat) (acc : Chars),
      List.foldl (editAt repl n) (h ++ acc) (l.map (· + h.length)) =
        h ++ List.foldl (editAt repl n) acc l := by
  intro l
  induction l with
  | nil => intro acc; rfl
  | cons o rest ih =>
    intro acc
    simp only [List.map_cons, List.foldl_cons]
    have hstep : editAt repl n (h ++ acc) (o + h.length) = h ++ editAt repl n acc o := by
      rw [editAt, editAt]
      rw [List.take_append_eq_append_take, List.drop_append_eq_append_drop]
      have htk : h.take (o + h.length) = h :=
        List.take_of_length_le (by omega)
      have hdp : h.drop (o + h.length + n) = [] :=
        List.drop_eq_nil_of_le (by omega)
      have hi1 : o + h.length - h.length = o := by omega
      have hi2 : o + h.length + n - h.length = o + n := by omega
      rw [htk, hdp, hi1, hi2]
      simp [List.append_assoc]
    rw [hstep, ih (editAt repl n acc o)]

theorem applyEdits_shift (hay repl : Chars) (n m : Nat) (hm : m ≤ hay.length)
    (offs : List Nat) :
    applyEdits hay repl n (offs.map (· + m)) =
      hay.take m ++ applyEdits (hay.drop m) repl n offs := by
  rw [applyEdits, applyEdits]
  have hrev : (offs.map (· + m)).reverse = offs.reverse.map (· + m) := by
    rw [List.map_reverse]
  rw [hrev]
  have hlen : (hay.take m).length = m := by
    rw [List.length_take]; omega
  have key := foldl_editAt_shift repl n (hay.take m) offs.reverse (hay.drop m)
  simp only [hlen, List.take_append_drop] at key
  exact key

theorem applyEdits_cons (hay repl : Chars) (n j : Nat) (offs : List Nat)
    (hj : j + n ≤ hay.length) :
    applyEdits hay repl n (j :: offs.map (· + (j + n))) =
      hay.take j ++ repl ++ applyEdits (hay.drop (j + n)) repl n offs := by
  rw [applyEdits, List.reverse_cons, List.foldl_append]
  have hshift : List.foldl (editAt repl n) hay ((offs.map (· + (j + n))).reverse) =
      hay.take (j + n) ++ applyEdits (hay.drop (j + n)) repl n offs := by
    have key := applyEdits_shift hay repl n (j + n) hj offs
    rw [applyEdits] at key
    exact key
  rw [hshift]
  simp only [List.foldl_cons, List.foldl_nil]
  rw [editAt]
  have hlen : (hay.take (j + n)).length = j + n := by
    rw [List.length_take]; omega
  have htake : ((hay.take (j + n)) ++ applyEdits (hay.drop (j + n)) repl n offs).take j =
      hay.take j := by
    rw [List.take_append_eq_append_take, hlen]
    have hz : j - (j + n) = 0 := by omega
    rw [hz, List.take_zero, List.append_nil, List.take_take]
    congr 1
    omega
  have hdrop : ((hay.take (j + n)) ++ applyEdits (hay.drop (j + n)) repl n offs).drop (j + n) =
      applyEdits (hay.drop (j + n)) repl n offs := by
    rw [List.drop_append_eq_append_drop, hlen]
    have hz : j + n - (j + n) = 0 := by omega
    rw [hz, List.drop_zero]
    have hnil : (hay.take (j + n)).drop (j + n) = [] :=
      List.drop_eq_nil_of_le (by omega)
    rw [hnil, List.nil_append]
  rw [htake, hdrop]

theorem replaceAll_eq_simultaneous (needle repl : Chars) (hn : needle.length ≠ 0) :
    ∀ hay : Chars, applyEdits hay repl needle.length (findAllFrom hay needle 0) =
      simultaneousReplace needle repl hay := by
  have key : ∀ (N : Nat) (hay : Chars), hay.length ≤ N →
      applyEdits hay repl needle.length (findAllFrom hay needle 0) =
        simultaneousReplace needle repl hay := by
    intro N
    induction N with
    | zero =>
      intro hay hlen
      have hhay : hay = [] := List.length_eq_zero.mp (by omega)
      subst hhay
      have hn1 : 1 ≤ needle.length := Nat.pos_of_ne_zero hn
      have hf : findFrom ([] : Chars) needle 0 = none := by
        rw [findFrom_unfold]
        rw [if_neg (by simp only [List.length_nil]; omega)]
      rw [findAllFrom_unfold _ _ hn, hf]
      rw [simultaneousReplace_of_none needle repl hn _ hf]
      rfl
    | succ N ih =>
      intro hay hlen
      rcases hf : findFrom hay needle 0 with _ | j
      · rw [findAllFrom_unfold _ _ hn, hf]
        rw [simultaneousReplace_of_none needle repl hn _ hf]
        rfl
      · rcases findFrom_some hay needle 0 j hf with ⟨_, hjlen, _⟩
        rw [findAllFrom_unfold _ _ hn, hf]
        show applyEdits hay repl needle.length
          (j :: findAllFrom hay needle (j + needle.length)) = _
        rw [findAllFrom_shift needle hn (j + needle.length) hay]
        rw [applyEdits_cons hay repl needle.length j _ hjlen]
        rw [ih (hay.drop (j + needle.length)) (by rw [List.length_drop]; omega)]
        rw [simultaneousReplace_first_match needle repl hn j hay hf]
  intro hay
  exact key hay.length hay (Nat.le_refl _)

/-- C4: Replace All over any buffer equals a simultaneous replace-all of every
non-overlapping occurrence (hence with an empty replacement it deletes all
matches), and it is a no-op when the search string is empty or when there are
no matches. -/
theorem c4_replace_all (hay needle repl : Chars) :
    (needle = [] → replaceAllModel hay needle repl = hay) ∧
    (needle ≠ [] → replaceAllModel hay needle repl = simultaneousReplace needle repl hay) ∧
    (findAllFrom hay needle 0 = [] → replaceAllModel hay needle repl = hay) := by
  refine ⟨?_, ?_, ?_⟩
  · intro h
    subst h
    rfl
  · intro h
    have hn : needle.length ≠ 0 := by
      intro hc
      exact h (List.length_eq_zero.mp hc)
    rw [replaceAllModel, if_neg hn]
    exact replaceAll_eq_simultaneous needle repl hn hay
  · intro h
    rw [replaceAllModel]
    split
    · rfl
    · rw [h]
      rfl

/-- Witness for C4: the spec example replacing cat with caterpillar in cat cat
cat performs three replacements, agrees with the simultaneous replace-all, and
an empty replacement deletes all matches. -/
theorem c4_witness :
    ("cat").toList ≠ [] ∧
    replaceAllModel (("cat cat cat").toList) (("cat").toList) (("caterpillar").toList) =
      simultaneousReplace (("cat").toList) (("caterpillar").toList)
        (("cat cat cat").toList) ∧
    replaceAllModel (("cat cat cat").toList) (("cat").toList) (("caterpillar").toList) =
      ("caterpillar caterpillar caterpillar").toList ∧
    (findAllFrom (("cat cat cat").toList) (("cat").toList) 0).length = 3 ∧
    replaceAllModel (("cat cat cat").toList) (("cat").toList) [] = ("  ").toList :=
  ⟨by decide,
   (c4_replace_all (("cat cat cat").toList) (("cat").toList)
     (("caterpillar").toList)).2.1 (by decide),
   by decide, by decide, by decide⟩

/-! ## Replace All caret placement (find_dialog._replace_all lines 152-156) -/

/-- Tk line (1-based) and column (0-based) of a character offset. -/
def lineColOfOff : Chars → Nat → Nat × Nat
  | _, 0 => (1, 0)
  | [], _ + 1 => (1, 0)
  | c :: rest, o + 1 =>
    if c = '\n' then ((lineColOfOff rest o).1 + 1, (lineColOfOff rest o).2)
    else if (lineColOfOff rest o).1 = 1 then (1, (lineColOfOff rest o).2 + 1)
    else lineColOfOff rest o

/-- Number of characters before the first line break. -/
def firstLineLen : Chars → Nat
  | [] => 0
  | c :: rest => if c = '\n' then 0 else firstLineLen rest + 1

/-- Resolve a Tk line.col index to a character offset, clamping the column to
the line end and an out-of-range line to the end of the text. -/
def offOfLineCol (s : Chars) (line col : Nat) : Nat :=
  match line, s with
  | 0, s => min col (firstLineLen s)
  | 1, s => min col (firstLineLen s)
  | _ + 2, [] => 0
  | l + 2, ch :: rest =>
    if ch = '\n' then 1 + offOfLineCol rest (l + 1) col
    else 1 + offOfLineCol rest (l + 2) col

/-- Newline skeleton of a text: which positions hold a line break. -/
def nlShape (s : Chars) : List Bool :=
  s.map (fun c => decide (c = '\n'))

theorem nlShape_cons (c : Char) (t : Chars) :
    nlShape (c :: t) = decide (c = '\n') :: nlShape t := rfl

theorem nlShape_append (a b : Chars) :
    nlShape (a ++ b) = nlShape a ++ nlShape b := List.map_append _ a b

theorem offOfLineCol_one (s : Chars) (col : Nat) :
    offOfLineCol s 1 col = min col (firstLineLen s) := by
  cases s <;> rfl

/-- From find_dialog._replace_all lines 152-156: the caret lands at the last
match's original line.col index, re-resolved in the edited buffer, advanced by
the replacement length and clamped to the buffer end. -/
def replaceAllCaret (hay needle repl : Chars) : Option Nat :=
  if needle.length = 0 then none
  else
    match (findAllFrom hay needle 0).getLast? with
    | none => none
    | some lastOff =>
      some (min (offOfLineCol (applyEdits hay repl needle.length (findAllFrom hay needle 0))
          (lineColOfOff hay lastOff).1 (lineColOfOff hay lastOff).2 + repl.length)
        (applyEdits hay repl needle.length (findAllFrom hay needle 0)).length)

/-- C5 counterexample: replacing cat by caterpillar in cat cat cat puts the
caret at offset 19 of the new buffer, while the final inserted occurrence of
the replacement ends at offset 24 + 11 = 35. -/
theorem c5_counterexample :
    replaceAllCaret (("cat cat cat").toList) (("cat").toList)
      (("caterpillar").toList) = some 19 ∧
    (findAllFrom (replaceAllModel (("cat cat cat").toList) (("cat").toList)
      (("caterpillar").toList)) (("caterpillar").toList) 0).getLast? = some 24 ∧
    (19 : Nat) ≠ 24 + (("caterpillar").toList).length :=
  ⟨by decide, by decide, by decide⟩

theorem lineColOfOff_line_pos : ∀ (s : Chars) (off : Nat), 1 ≤ (lineColOfOff s off).1 := by
  intro s
  induction s with
  | nil => intro off; cases off <;> simp [lineColOfOff]
  | cons c rest ih =>
    intro off
    cases off with
    | zero => simp [lineColOfOff]
    | succ o =>
      simp only [lineColOfOff]
      by_cases hc : c = '\n'
      · rw [if_pos hc]
        simp
      · rw [if_neg hc]
        by_cases h1 : (lineColOfOff rest o).1 = 1
        · rw [if_pos h1]
        · rw [if_neg h1]
          exact ih o

theorem offOfLineCol_lineColOfOff :
    ∀ (s : Chars) (off : Nat), off ≤ s.length →
      offOfLineCol s (lineColOfOff s off).1 (lineColOfOff s off).2 = off := by
  intro s
  induction s with
  | nil =>
    intro off hoff
    simp at hoff
    subst hoff
    rfl
  | cons c rest ih =>
    intro off hoff
    cases off with
    | zero =>
      show min 0 (firstLineLen (c :: rest)) = 0
      simp
    | succ o =>
      have ho : o ≤ rest.length := by
        simp only [List.length_cons] at hoff
        omega
      have hpos := lineColOfOff_line_pos rest o
      have hih := ih o ho
      simp only [lineColOfOff]
      by_cases hc : c = '\n'
      · rw [if_pos hc]
        obtain ⟨l, hl⟩ : ∃ l, (lineColOfOff rest o).1 = l + 1 :=
          ⟨(lineColOfOff rest o).1 - 1, by omega⟩
        show offOfLineCol (c :: rest) ((lineColOfOff rest o).1 + 1)
          (lineColOfOff rest o).2 = o + 1
        rw [hl]
        have harm : offOfLineCol (c :: rest) (l + 1 + 1) (lineColOfOff rest o).2 =
            if c = '\n' then 1 + offOfLineCol rest (l + 1) (lineColOfOff rest o).2
            else 1 + offOfLineCol rest (l + 1 + 1) (lineColOfOff rest o).2 := rfl
        rw [harm, if_pos hc, ← hl, hih]
        omega
      · rw [if_neg hc]
        by_cases h1 : (lineColOfOff rest o).1 = 1
        · rw [if_pos h1]
          show offOfLineCol (c :: rest) 1 ((lineColOfOff rest o).2 + 1) = o + 1
          have harm : offOfLineCol (c :: rest) 1 ((lineColOfOff rest o).2 + 1) =
              min ((lineColOfOff rest o).2 + 1) (firstLineLen (c :: rest)) := rfl
          rw [harm]
          have hfl : firstLineLen (c :: rest) = firstLineLen rest + 1 := by
            simp [firstLineLen, hc]
          rw [hfl, Nat.succ_min_succ]
          rw [h1] at hih
          rw [offOfLineCol_one rest (lineColOfOff rest o).2] at hih
          omega
        · rw [if_neg h1]
          obtain ⟨l, hl⟩ : ∃ l, (lineColOfOff rest o).1 = l + 2 :=
            ⟨(lineColOfOff rest o).1 - 2, by omega⟩
          show offOfLineCol (c :: rest) (lineColOfOff rest o).1
            (lineColOfOff rest o).2 = o + 1
          rw [hl]
          have harm : offOfLineCol (c :: rest) (l + 2) (lineColOfOff rest o).2 =
              if c = '\n' then 1 + offOfLineCol rest (l + 1) (lineColOfOff rest o).2
              else 1 + offOfLineCol rest (l + 2) (lineColOfOff rest o).2 := rfl
          rw [harm, if_neg hc]
          rw [hl] at hih
          omega

theorem decide_nl_iff {c d : Char} (h : decide (c = '\n') = decide (d = '\n')) :
    (c = '\n') ↔ (d = '\n') := by
  constructor
  · intro hx
    have hd : decide (d = '\n') = true := by
      rw [← h]
      simp [hx]
    simpa using hd
  · intro hx
    have hd : decide (c = '\n') = true := by
      rw [h]
      simp [hx]
    simpa using hd

theorem firstLineLen_congr : ∀ (s t : Chars), nlShape s = nlShape t →
    firstLineLen s = firstLineLen t := by
  intro s
  induction s with
  | nil =>
    intro t h
    have ht : t = [] := List.map_eq_nil_iff.mp h.symm
    subst ht
    rfl
  | cons c s2 ih =>
    intro t h
    cases t with
    | nil => simp [nlShape] at h
    | cons d t2 =>
      have h2 := h
      simp only [nlShape, List.map_cons, List.cons.injEq] at h2
      rcases h2 with ⟨hcd, hst⟩
      by_cases hc : c = '\n'
      · have hd : d = '\n' := (decide_nl_iff hcd).mp hc
        simp [firstLineLen, hc, hd]
      · have hd : ¬ d = '\n' := fun hdd => hc ((decide_nl_iff hcd).mpr hdd)
        simp only [firstLineLen, if_neg hc, if_neg hd]
        have := ih t2 hst
        omega

theorem lineColOfOff_congr : ∀ (s t : Chars), nlShape s = nlShape t →
    ∀ off, lineColOfOff s off = lineColOfOff t off := by
  intro s
  induction s with
  | nil =>
    intro t h off
    have ht : t = [] := List.map_eq_nil_iff.mp h.symm
    subst ht
    rfl
  | cons c s2 ih =>
    intro t h off
    cases t with
    | nil => simp [nlShape] at h
    | cons d t2 =>
      have h2 := h
      simp only [nlShape, List.map_cons, List.cons.injEq] at h2
      rcases h2 with ⟨hcd, hst⟩
      cases off with
      | zero => rfl
      | succ o =>
        simp only [lineColOfOff]
        rw [ih t2 hst o]
        by_cases hc : c = '\n'
        · rw [if_pos hc, if_pos ((decide_nl_iff hcd).mp hc)]
        · rw [if_neg hc, if_neg (fun hd => hc ((decide_nl_iff hcd).mpr hd))]

theorem offOfLineCol_congr : ∀ (s t : Chars), nlShape s = nlShape t →
    ∀ line col, offOfLineCol s line col = offOfLineCol t line col := by
  intro s
  induction s with
  | nil =>
    intro t h line col
    have ht : t = [] := List.map_eq_nil_iff.mp h.symm
    subst ht
    rfl
  | cons c s2 ih =>
    intro t h line col
    cases t with
    | nil => simp [nlShape] at h
    | cons d t2 =>
      have h2 := h
      simp only [nlShape, List.map_cons, List.cons.injEq] at h2
      rcases h2 with ⟨hcd, hst⟩
      have hfl : firstLineLen (c :: s2) = firstLineLen (d :: t2) :=
        firstLineLen_congr _ _ h
      cases line with
      | zero =>
        show min col (firstLineLen (c :: s2)) = min col (firstLineLen (d :: t2))
        rw [hfl]
      | succ l1 =>
        cases l1 with
        | zero =>
          show min col (firstLineLen (c :: s2)) = min col (firstLineLen (d :: t2))
          rw [hfl]
        | succ l =>
          show (if c = '\n' then 1 + offOfLineCol s2 (l + 1) col
              else 1 + offOfLineCol s2 (l + 2) col) =
            (if d = '\n' then 1 + offOfLineCol t2 (l + 1) col
              else 1 + offOfLineCol t2 (l + 2) col)
          by_cases hc : c = '\n'
          · rw [if_pos hc, if_pos ((decide_nl_iff hcd).mp hc), ih t2 hst (l + 1) col]
          · rw [if_neg hc, if_neg (fun hd => hc ((decide_nl_iff hcd).mpr hd)),
              ih t2 hst (l + 2) col]

theorem nlShape_of_no_nl : ∀ (l : Chars), (∀ c ∈ l, c ≠ '\n') →
    nlShape l = List.replicate l.length false := by
  intro l
  induction l with
  | nil => intro _; rfl
  | cons c t ih =>
    intro h
    have hc : c ≠ '\n' := h c (List.mem_cons_self c t)
    have ht := ih (fun x hx => h x (List.mem_cons_of_mem c hx))
    show decide (c = '\n') :: nlShape t = List.replicate (t.length + 1) false
    rw [List.replicate_succ, ht]
    congr 1
    simp [hc]

theorem take_eq_of_matchesAt_zero {hay needle : Chars}
    (h : matchesAt hay needle 0 = true) : hay.take needle.length = needle := by
  have hp := of_decide_eq_true h
  simpa using hp

theorem nlShape_simultaneousReplace (needle repl : Chars) (hn : needle.length ≠ 0)
    (hlen : repl.length = needle.length)
    (hnl : ∀ c ∈ needle, c ≠ '\n') (hrl : ∀ c ∈ repl, c ≠ '\n') :
    ∀ hay, nlShape (simultaneousReplace needle repl hay) = nlShape hay := by
  have key : ∀ N hay, hay.length ≤ N →
      nlShape (simultaneousReplace needle repl hay) = nlShape hay := by
    intro N
    induction N with
    | zero =>
      intro hay hl
      have hhay : hay = [] := List.length_eq_zero.mp (by omega)
      subst hhay
      rw [simultaneousReplace_unfold, if_neg hn,
        if_pos (by simp only [List.length_nil]; omega)]
    | succ N ih =>
      intro hay hl
      rw [simultaneousReplace_unfold, if_neg hn]
      by_cases hlt : hay.length < needle.length
      · rw [if_pos hlt]
      · rw [if_neg hlt]
        by_cases hm : matchesAt hay needle 0
        · rw [if_pos hm]
          have htk : hay.take needle.length = needle := take_eq_of_matchesAt_zero hm
          have hdl : (hay.drop needle.length).length ≤ N := by
            rw [List.length_drop]
            have := Nat.pos_of_ne_zero hn
            omega
          rw [nlShape_append, ih _ hdl]
          conv_rhs => rw [← List.take_append_drop needle.length hay]
          rw [nlShape_append]
          congr 1
          rw [htk, nlShape_of_no_nl needle hnl, nlShape_of_no_nl repl hrl, hlen]
        · rw [if_neg hm]
          cases hay with
          | nil => rfl
          | cons c t =>
            have hih := ih t (by simp only [List.length_cons] at hl; omega)
            show nlShape (c :: simultaneousReplace needle repl t) = nlShape (c :: t)
            rw [nlShape_cons, nlShape_cons, hih]
  intro hay
  exact key hay.length hay (Nat.le_refl _)

theorem length_simultaneousReplace (needle repl : Chars) (hn : needle.length ≠ 0)
    (hlen : repl.length = needle.length)
    (hnl : ∀ c ∈ needle, c ≠ '\n') (hrl : ∀ c ∈ repl, c ≠ '\n') (hay : Chars) :
    (simultaneousReplace needle repl hay).length = hay.length := by
  have h := congrArg List.length
    (nlShape_simultaneousReplace needle repl hn hlen hnl hrl hay)
  simpa [nlShape, List.length_map] using h

theorem getLastQ_map (f : Nat → Nat) : ∀ l : List Nat,
    (l.map f).getLast? = (l.getLast?).map f := by
  intro l
  induction l with
  | nil => rfl
  | cons a t ih =>
    cases t with
    | nil => rfl
    | cons b t2 =>
      rw [List.map_cons, List.map_cons, List.getLast?_cons_cons,
        List.getLast?_cons_cons, ← List.map_cons]
      exact ih

theorem getLastQ_cons_map (f : Nat → Nat) (j : Nat) (l : List Nat) (hne : l ≠ []) :
    (j :: l.map f).getLast? = (l.getLast?).map f := by
  cases l with
  | nil => exact absurd rfl hne
  | cons x xs =>
    rw [List.map_cons, List.getLast?_cons_cons, ← List.map_cons]
    exact getLastQ_map f (x :: xs)

theorem mem_of_getLastQ : ∀ (l : List Nat) (a : Nat), l.getLast? = some a → a ∈ l := by
  intro l
  induction l with
  | nil => intro a h; simp at h
  | cons x t ih =>
    intro a h
    cases t with
    | nil =>
      simp at h
      simp [h]
    | cons y t2 =>
      rw [List.getLast?_cons_cons] at h
      exact List.mem_cons_of_mem x (ih a h)

theorem replaced_at_last (needle repl : Chars) (hn : needle.length ≠ 0)
    (hlen : repl.length = needle.length) :
    ∀ N hay lastOff, hay.length ≤ N →
      (findAllFrom hay needle 0).getLast? = some lastOff →
      ((simultaneousReplace needle repl hay).drop lastOff).take repl.length = repl := by
  intro N
  induction N with
  | zero =>
    intro hay lastOff hl hlast
    have hhay : hay = [] := List.length_eq_zero.mp (by omega)
    subst hhay
    have hn1 : 1 ≤ needle.length := Nat.pos_of_ne_zero hn
    have hf : findFrom ([] : Chars) needle 0 = none := by
      rw [findFrom_unfold]
      rw [if_neg (by simp only [List.length_nil]; omega)]
    have hexp : findAllFrom ([] : Chars) needle 0 = [] := by
      rw [findAllFrom_unfold _ _ hn, hf]
    rw [hexp] at hlast
    simp at hlast
  | succ N ih =>
    intro hay lastOff hl hlast
    rcases hf : findFrom hay needle 0 with _ | j
    · have hexp : findAllFrom hay needle 0 = [] := by
        rw [findAllFrom_unfold _ _ hn, hf]
      rw [hexp] at hlast
      simp at hlast
    · rcases findFrom_some hay needle 0 j hf with ⟨_, hjlen, _⟩
      have hn1 : 1 ≤ needle.length := Nat.pos_of_ne_zero hn
      have hexp : findAllFrom hay needle 0 =
          j :: findAllFrom hay needle (j + needle.length) := by
        rw [findAllFrom_unfold _ _ hn, hf]
      rw [hexp] at hlast
      rw [findAllFrom_shift needle hn (j + needle.length) hay] at hlast
      rw [simultaneousReplace_first_match needle repl hn j hay hf]
      rcases hinner : findAllFrom (hay.drop (j + needle.length)) needle 0 with _ | ⟨x, xs⟩
      · rw [hinner] at hlast
        simp at hlast
        subst hlast
        have htl : (hay.take j).length = j := by
          rw [List.length_take]
          omega
        have hA : (hay.take j ++ repl).drop j = repl := by
          rw [List.drop_append_eq_append_drop,
            List.drop_eq_nil_of_le (le_of_eq htl), htl, Nat.sub_self,
            List.drop_zero, List.nil_append]
        have hAlen : (hay.take j ++ repl).length = j + repl.length := by
          rw [List.length_append, htl]
        rw [List.drop_append_eq_append_drop, hA, hAlen]
        have hz : j - (j + repl.length) = 0 := by omega
        rw [hz, List.drop_zero]
        rw [List.take_append_eq_append_take,
          List.take_of_length_le (Nat.le_refl _), Nat.sub_self, List.take_zero,
          List.append_nil]
      · rw [hinner] at hlast
        rw [getLastQ_cons_map _ j (x :: xs) (by simp)] at hlast
        rcases hlast2 : (x :: xs).getLast? with _ | lastOffInner
        · rw [hlast2] at hlast
          simp at hlast
        · rw [hlast2] at hlast
          simp only [Option.map_some', Option.some_inj] at hlast
          have hrec := ih (hay.drop (j + needle.length)) lastOffInner
            (by rw [List.length_drop]; omega)
            (by rw [hinner]; exact hlast2)
          have hpref : (hay.take j ++ repl).length = j + needle.length := by
            rw [List.length_append, List.length_take, hlen]
            omega
          rw [← hlast]
          rw [List.drop_append_eq_append_drop, hpref]
          have hd1 : (hay.take j ++ repl).drop (lastOffInner + (j + needle.length)) = [] :=
            List.drop_eq_nil_of_le (by rw [hpref]; omega)
          have hidx : lastOffInner + (j + needle.length) - (j + needle.length) =
              lastOffInner := by omega
          rw [hd1, List.nil_append, hidx]
          exact hrec

/-- C5 amended: the caret is placed the replacement length past the position
that the last match's original line.col index denotes in the edited buffer; in
particular when the replacement has the same length as the search string and
neither contains a line break, this is exactly just past the last replaced
occurrence (whose text in the new buffer is the replacement). -/
theorem c5_caret_after_replace_all (hay needle repl : Chars) (hne : needle ≠ [])
    (hnl : ∀ c ∈ needle, c ≠ '\n') (hrl : ∀ c ∈ repl, c ≠ '\n')
    (hlen : repl.length = needle.length) (lastOff : Nat)
    (hlast : (findAllFrom hay needle 0).getLast? = some lastOff) :
    replaceAllCaret hay needle repl = some (lastOff + repl.length) ∧
    ((replaceAllModel hay needle repl).drop lastOff).take repl.length = repl := by
  have hn : needle.length ≠ 0 := fun hc => hne (List.length_eq_zero.mp hc)
  have hmem : lastOff ∈ findAllFrom hay needle 0 := mem_of_getLastQ _ _ hlast
  rcases findAllFrom_mem hay needle hn 0 lastOff hmem with ⟨_, hbound, _⟩
  have heq : applyEdits hay repl needle.length (findAllFrom hay needle 0) =
      simultaneousReplace needle repl hay :=
    replaceAll_eq_simultaneous needle repl hn hay
  have hflen : (simultaneousReplace needle repl hay).length = hay.length :=
    length_simultaneousReplace needle repl hn hlen hnl hrl hay
  have hshape : nlShape (simultaneousReplace needle repl hay) = nlShape hay :=
    nlShape_simultaneousReplace needle repl hn hlen hnl hrl hay
  constructor
  · rw [replaceAllCaret, if_neg hn]
    simp only [hlast]
    rw [heq, hflen]
    have hlc : lineColOfOff hay lastOff =
        lineColOfOff (simultaneousReplace needle repl hay) lastOff :=
      (lineColOfOff_congr _ _ hshape lastOff).symm
    rw [hlc]
    rw [offOfLineCol_lineColOfOff (simultaneousReplace needle repl hay) lastOff
      (by rw [hflen]; omega)]
    have hmin : min (lastOff + repl.length) hay.length = lastOff + repl.length := by
      rw [hlen]
      exact min_eq_left (by omega)
    rw [hmin]
  · rw [replaceAllModel, if_neg hn, heq]
    exact replaced_at_last needle repl hn hlen hay.length hay lastOff
      (Nat.le_refl _) hlast

/-- Witness for C5: replacing cat by dog in cat cat puts the caret just past
the second replaced occurrence. -/
theorem c5_witness :
    (findAllFrom (("cat cat").toList) (("cat").toList) 0).getLast? = some 4 ∧
    replaceAllCaret (("cat cat").toList) (("cat").toList) (("dog").toList) =
      some (4 + (("dog").toList).length) ∧
    ((replaceAllModel (("cat cat").toList) (("cat").toList) (("dog").toList)).drop 4).take
      (("dog").toList).length = ("dog").toList :=
  ⟨by decide,
   (c5_caret_after_replace_all (("cat cat").toList) (("cat").toList) (("dog").toList)
     (by decide) (by decide) (by decide) (by decide) 4 (by decide)).1,
   (c5_caret_after_replace_all (("cat cat").toList) (("cat").toList) (("dog").toList)
     (by decide) (by decide) (by decide) (by decide) 4 (by decide)).2⟩

/-! ## Render mutual exclusion (mermaid_studio render lock) -/

/-- Phase of a spawned render worker thread: waiting to acquire the render
lock, or holding it with the subprocess in flight. -/
inductive WorkerPhase where
  | acquiring
  | inFlight
deriving DecidableEq

/-- Render-relevant application state: whether the render lock is held, the
spawned worker threads, the pending auto-render flag, and the number of
render-in-progress information dialogs shown. -/
structure RenderState where
  lockHeld : Bool
  workers : List WorkerPhase
  pendingAuto : Bool
  rejectedDialogs : Nat
deriving DecidableEq

/-- Events of the render subsystem. -/
inductive RenderLabel where
  | manual
  | auto
  | acquire
  | finish
deriving DecidableEq

/-- Step relation translated from mermaid_studio: _render_async lines 751-757
(a manual request with the lock held shows the dialog and returns without
starting anything, otherwise a worker thread is spawned), _auto_render_fire
lines 406-423 (an auto trigger with the lock held only sets the pending flag,
otherwise it triggers a render), and the worker body lines 756-870 (acquire
the lock, run the subprocess, release). -/
inductive RenderStep : RenderLabel → RenderState → RenderState → Prop where
  | manualLocked (s : RenderState) (h : s.lockHeld = true) :
      RenderStep .manual s { s with rejectedDialogs := s.rejectedDialogs + 1 }
  | manualFree (s : RenderState) (h : s.lockHeld = false) :
      RenderStep .manual s { s with workers := .acquiring :: s.workers }
  | autoLocked (s : RenderState) (h : s.lockHeld = true) :
      RenderStep .auto s { s with pendingAuto := true }
  | autoFree (s : RenderState) (h : s.lockHeld = false) :
      RenderStep .auto s { s with workers := .acquiring :: s.workers }
  | acquire (s : RenderState) (pre post : List WorkerPhase)
      (h : s.lockHeld = false) (hw : s.workers = pre ++ .acquiring :: post) :
      RenderStep .acquire s
        { s with lockHeld := true, workers := pre ++ .inFlight :: post }
  | finish (s : RenderState) (pre post : List WorkerPhase) (b : Bool)
      (hw : s.workers = pre ++ .inFlight :: post) :
      RenderStep .finish s
        { s with lockHeld := false, workers := pre ++ post, pendingAuto := b && s.pendingAuto }

/-- The initial state: lock free, no workers, nothing pending. -/
def initRenderState : RenderState :=
  { lockHeld := false, workers := [], pendingAuto := false, rejectedDialogs := 0 }

/-- Reachability along any interleaving of render events. -/
def RenderReachable (s : RenderState) : Prop :=
  Relation.ReflTransGen (fun a b => ∃ l, RenderStep l a b) initRenderState s

/-- Number of worker threads whose subprocess is in flight. -/
def inFlightCount (s : RenderState) : Nat :=
  s.workers.count WorkerPhase.inFlight

/-- Mutual-exclusion invariant: at most one subprocess in flight, and none at
all when the render lock is free. -/
def RenderInv (s : RenderState) : Prop :=
  inFlightCount s ≤ 1 ∧ (s.lockHeld = false → inFlightCount s = 0)

theorem renderStep_inv {l : RenderLabel} {s t : RenderState}
    (h : RenderStep l s t) (hinv : RenderInv s) : RenderInv t := by
  rcases hinv with ⟨h1, h2⟩
  cases h with
  | manualLocked s hl => exact ⟨h1, h2⟩
  | manualFree s hl =>
    have hc : (WorkerPhase.acquiring :: s.workers).count WorkerPhase.inFlight =
        s.workers.count WorkerPhase.inFlight := by
      simp [List.count_cons]
    constructor
    · show (WorkerPhase.acquiring :: s.workers).count WorkerPhase.inFlight ≤ 1
      rw [hc]
      exact h1
    · intro _
      show (WorkerPhase.acquiring :: s.workers).count WorkerPhase.inFlight = 0
      rw [hc]
      exact h2 hl
  | autoLocked s hl => exact ⟨h1, h2⟩
  | autoFree s hl =>
    have hc : (WorkerPhase.acquiring :: s.workers).count WorkerPhase.inFlight =
        s.workers.count WorkerPhase.inFlight := by
      simp [List.count_cons]
    constructor
    · show (WorkerPhase.acquiring :: s.workers).count WorkerPhase.inFlight ≤ 1
      rw [hc]
      exact h1
    · intro _
      show (WorkerPhase.acquiring :: s.workers).count WorkerPhase.inFlight = 0
      rw [hc]
      exact h2 hl
  | acquire s pre post hl hw =>
    have hold : s.workers.count WorkerPhase.inFlight = 0 := h2 hl
    rw [hw] at hold
    simp [List.count_append, List.count_cons] at hold
    constructor
    · show (pre ++ WorkerPhase.inFlight :: post).count WorkerPhase.inFlight ≤ 1
      simp [List.count_append, List.count_cons, hold.1, hold.2]
    · intro hfalse
      simp at hfalse
  | finish s pre post b hw =>
    have h1w : (pre ++ WorkerPhase.inFlight :: post).count WorkerPhase.inFlight ≤ 1 := by
      rw [← hw]
      exact h1
    simp [List.count_append, List.count_cons] at h1w
    constructor
    · show (pre ++ post).count WorkerPhase.inFlight ≤ 1
      rw [List.count_append]
      omega
    · intro _
      show (pre ++ post).count WorkerPhase.inFlight = 0
      rw [List.count_append]
      omega

theorem renderReachable_inv (s : RenderState) (h : RenderReachable s) : RenderInv s := by
  induction h with
  | refl =>
    constructor
    · show ([] : List WorkerPhase).count WorkerPhase.inFlight ≤ 1
      simp
    · intro _
      rfl
  | tail hab hbc ih =>
    rcases hbc with ⟨l, hstep⟩
    exact renderStep_inv hstep ih

/-- C6: along every reachable interleaving at most one render subprocess is in
flight; a manual render request arriving while the lock is held only shows the
informational dialog (no worker is spawned, nothing else changes), and an auto
trigger arriving while the lock is held only sets the pending-auto-render flag
(no worker is spawned). -/
theorem c6_render_mutual_exclusion :
    (∀ s : RenderState, RenderReachable s → inFlightCount s ≤ 1) ∧
    (∀ s t : RenderState, s.lockHeld = true → RenderStep .manual s t →
      t.workers = s.workers ∧ t.rejectedDialogs = s.rejectedDialogs + 1 ∧
      t.lockHeld = s.lockHeld ∧ t.pendingAuto = s.pendingAuto) ∧
    (∀ s t : RenderState, s.lockHeld = true → RenderStep .auto s t →
      t.workers = s.workers ∧ t.pendingAuto = true ∧
      t.lockHeld = s.lockHeld ∧ t.rejectedDialogs = s.rejectedDialogs) := by
  refine ⟨?_, ?_, ?_⟩
  · intro s h
    exact (renderReachable_inv s h).1
  · intro s t hlock hstep
    cases hstep with
    | manualLocked s h => exact ⟨rfl, rfl, rfl, rfl⟩
    | manualFree s h => rw [h] at hlock; cases hlock
  · intro s t hlock hstep
    cases hstep with
    | autoLocked s h => exact ⟨rfl, rfl, rfl, rfl⟩
    | autoFree s h => rw [h] at hlock; cases hlock

/-- One spawned worker waiting on the lock. -/
def renderS1 : RenderState :=
  { lockHeld := false, workers := [.acquiring], pendingAuto := false, rejectedDialogs := 0 }

/-- The worker holds the lock with the subprocess in flight. -/
def renderS2 : RenderState :=
  { lockHeld := true, workers := [.inFlight], pendingAuto := false, rejectedDialogs := 0 }

/-- After a manual render request is rejected during the in-flight render. -/
def renderS3 : RenderState :=
  { lockHeld := true, workers := [.inFlight], pendingAuto := false, rejectedDialogs := 1 }

theorem renderReach2 : RenderReachable renderS2 :=
  Relation.ReflTransGen.tail
    (Relation.ReflTransGen.single
      ⟨RenderLabel.manual, RenderStep.manualFree initRenderState rfl⟩)
    ⟨RenderLabel.acquire, RenderStep.acquire renderS1 [] [] rfl rfl⟩

/-- Witness for C6: in the concrete reachable state with one in-flight render,
the invariant holds, and a manual request there is rejected with a dialog and
spawns nothing. -/
theorem c6_witness :
    inFlightCount renderS2 ≤ 1 ∧
    (renderS3.workers = renderS2.workers ∧
      renderS3.rejectedDialogs = renderS2.rejectedDialogs + 1 ∧
      renderS3.lockHeld = renderS2.lockHeld ∧
      renderS3.pendingAuto = renderS2.pendingAuto) :=
  ⟨c6_render_mutual_exclusion.1 renderS2 renderReach2,
   c6_render_mutual_exclusion.2.1 renderS2 renderS3 rfl
     (RenderStep.manualLocked renderS2 rfl)⟩

end MermaidStudio
